import Mathlib

/-
Shallow embedding of `server/scoreCalculator.js` from the eduverse-leaderboard
repository (class ScoreCalculator: calculateFinalScore, calculateRankings,
validateAIScore, validateCriteria).

Modeling conventions:
- JavaScript numbers are modeled as rationals; the specification mandates
  exact scale-multiply-round-divide rounding semantics, and the tolerance
  checks are stated over exact values.
- a field absent from a JavaScript object (undefined) is modeled as
  Option.none; a present numeric field as Option.some.  The JavaScript value
  null and non-numeric values are outside the numeric model: the validators
  treat them exactly like out-of-model values, and the specification
  constrains only numeric fields.
- the error strings pushed by the validators are modeled by inductive error
  values carrying the same data (the offending field name, or the offending
  total weight), so that statements about which violations are reported do
  not depend on string formatting.
- JavaScript Array.prototype.sort is stable (ECMA-262); the comparator
  (a, b) => b.finalScore - a.finalScore therefore performs a stable
  descending sort by finalScore, which is modeled by the stable insertion
  sort List.insertionSort with the relation scoreGE below.
-/

/-- The seven canonical weight field names iterated by validateCriteria
(`weightFields` in the source). -/
inductive WField where
  | logic
  | clarity
  | testing
  | efficiency
  | api_ui
  | edge_cases
  | creativity
deriving DecidableEq, Repr

/-- A WeightSet (recruiter criteria object): each of the seven canonical
weights is either absent (undefined in JavaScript) or a number. -/
structure Criteria where
  logic_weight : Option ℚ := none
  clarity_weight : Option ℚ := none
  testing_weight : Option ℚ := none
  efficiency_weight : Option ℚ := none
  api_ui_weight : Option ℚ := none
  edge_cases_weight : Option ℚ := none
  creativity_weight : Option ℚ := none
deriving DecidableEq, Repr

/-- Object lookup `criteria[field]` for the seven canonical weight names. -/
def getWeight (c : Criteria) : WField → Option ℚ
  | .logic => c.logic_weight
  | .clarity => c.clarity_weight
  | .testing => c.testing_weight
  | .efficiency => c.efficiency_weight
  | .api_ui => c.api_ui_weight
  | .edge_cases => c.edge_cases_weight
  | .creativity => c.creativity_weight

/-- The `weightFields` array of validateCriteria, in source order. -/
def weightFields : List WField :=
  [.logic, .clarity, .testing, .efficiency, .api_ui, .edge_cases, .creativity]

/-- The error messages pushed by validateCriteria, with their data:
`"${field} must be a number between 0 and 1"` and
`"Total weight must equal 1.0, got ${totalWeight}"`. -/
inductive CritError where
  | weightOutOfRange (field : WField)
  | totalWeightNot1 (total : ℚ)
deriving DecidableEq, Repr

/-- The `{ isValid, errors }` object returned by both validators. -/
structure ValidationResult (ε : Type) where
  isValid : Bool
  errors : List ε
deriving DecidableEq, Repr

/-- The reduce in validateCriteria:
`weightFields.reduce((sum, field) => sum + (criteria[field] || 0), 0)`;
an absent weight contributes 0. -/
def totalWeight (c : Criteria) : ℚ :=
  (weightFields.map fun f => (getWeight c f).getD 0).sum

/-- The range-check loop of validateCriteria: for each present weight outside
[0, 1] an error naming the field is pushed, in field order. -/
def criteriaRangeErrors (c : Criteria) : List CritError :=
  weightFields.filterMap fun f =>
    match getWeight c f with
    | none => none
    | some w => if w < 0 ∨ w > 1 then some (CritError.weightOutOfRange f) else none

/-- validateCriteria from the source: collects every range violation, then the
total-weight violation when `|totalWeight - 1.0| > 0.01`, and returns
`{ isValid: errors.length === 0, errors }`. -/
def validateCriteria (c : Criteria) : ValidationResult CritError :=
  let errors := criteriaRangeErrors c ++
    (if |totalWeight c - 1| > 1/100 then [CritError.totalWeightNot1 (totalWeight c)] else [])
  ⟨errors.isEmpty, errors⟩

/-- The field names consulted by validateAIScore (`required` plus the
optional score fields). -/
inductive SField where
  | user_id
  | challenge_id
  | ai_score
  | code_quality
  | testing_rate
  | logic_score
  | clarity_score
  | efficiency_score
  | api_ui_score
  | edge_cases_score
  | creativity_score
deriving DecidableEq, Repr

/-- A raw AI score object as validated by validateAIScore: two identity
fields and nine numeric sub-score fields, each possibly absent. -/
structure RawScore where
  user_id : Option String := none
  challenge_id : Option String := none
  ai_score : Option ℚ := none
  code_quality : Option ℚ := none
  testing_rate : Option ℚ := none
  logic_score : Option ℚ := none
  clarity_score : Option ℚ := none
  efficiency_score : Option ℚ := none
  api_ui_score : Option ℚ := none
  edge_cases_score : Option ℚ := none
  creativity_score : Option ℚ := none
deriving DecidableEq, Repr

/-- The presence test `aiScore[field] !== undefined && aiScore[field] !== null`. -/
def isPresent (a : RawScore) : SField → Bool
  | .user_id => a.user_id.isSome
  | .challenge_id => a.challenge_id.isSome
  | .ai_score => a.ai_score.isSome
  | .code_quality => a.code_quality.isSome
  | .testing_rate => a.testing_rate.isSome
  | .logic_score => a.logic_score.isSome
  | .clarity_score => a.clarity_score.isSome
  | .efficiency_score => a.efficiency_score.isSome
  | .api_ui_score => a.api_ui_score.isSome
  | .edge_cases_score => a.edge_cases_score.isSome
  | .creativity_score => a.creativity_score.isSome

/-- Numeric lookup `aiScore[field]` for the score fields (the two identity
fields are not numeric and are never range-checked by the source). -/
def getScore (a : RawScore) : SField → Option ℚ
  | .user_id => none
  | .challenge_id => none
  | .ai_score => a.ai_score
  | .code_quality => a.code_quality
  | .testing_rate => a.testing_rate
  | .logic_score => a.logic_score
  | .clarity_score => a.clarity_score
  | .efficiency_score => a.efficiency_score
  | .api_ui_score => a.api_ui_score
  | .edge_cases_score => a.edge_cases_score
  | .creativity_score => a.creativity_score

/-- The `required` array of validateAIScore, in source order. -/
def requiredFields : List SField :=
  [.user_id, .challenge_id, .ai_score, .code_quality, .testing_rate,
   .logic_score, .clarity_score]

/-- The `scoreFields` array of validateAIScore, in source order. -/
def scoreFields : List SField :=
  [.ai_score, .code_quality, .testing_rate, .logic_score, .clarity_score,
   .efficiency_score, .api_ui_score, .edge_cases_score, .creativity_score]

/-- The error messages pushed by validateAIScore, with their data:
`"Missing required field: ${field}"` and
`"${field} must be a number between 0 and 100"`. -/
inductive ScoreError where
  | missingField (field : SField)
  | scoreOutOfRange (field : SField)
deriving DecidableEq, Repr

/-- validateAIScore from the source: one error per missing required field (in
required-field order), then one error per present score field outside
[0, 100] (in score-field order); `isValid` iff no error. -/
def validateAIScore (a : RawScore) : ValidationResult ScoreError :=
  let missingErrors := requiredFields.filterMap fun f =>
    if isPresent a f then none else some (ScoreError.missingField f)
  let rangeErrors := scoreFields.filterMap fun f =>
    match getScore a f with
    | none => none
    | some v => if v < 0 ∨ v > 100 then some (ScoreError.scoreOutOfRange f) else none
  let errors := missingErrors ++ rangeErrors
  ⟨errors.isEmpty, errors⟩

/-- The `Math.round(v * 100) / 100` rounding applied by calculateFinalScore:
half-up rounding on the value scaled by 100 (Math.round x = floor (x + 1/2)),
then division by 100. -/
def round2 (q : ℚ) : ℚ := (⌊q * 100 + 1/2⌋ : ℚ) / 100

/-- The aiScore argument as destructured by calculateFinalScore: logic_score,
clarity_score and testing_rate are taken without a default (a JavaScript
object missing one of them would propagate NaN, which is outside the numeric
model, so the embedding takes them as numbers); the other four sub-scores
default to 0 when absent. -/
structure AIScore where
  logic_score : ℚ
  clarity_score : ℚ
  testing_rate : ℚ
  efficiency_score : Option ℚ := none
  api_ui_score : Option ℚ := none
  edge_cases_score : Option ℚ := none
  creativity_score : Option ℚ := none
deriving DecidableEq, Repr

/-- View of a raw score object as a calculateFinalScore argument, defined when
the three sub-scores destructured without a default are present as numbers. -/
def RawScore.toAIScore : RawScore → Option AIScore
  | a =>
    match a.logic_score, a.clarity_score, a.testing_rate with
    | some l, some c, some t =>
      some ⟨l, c, t, a.efficiency_score, a.api_ui_score, a.edge_cases_score,
        a.creativity_score⟩
    | _, _, _ => none

/-- One line of the `breakdown` object: `{ score, weight, contribution }`. -/
structure BreakdownEntry where
  score : ℚ
  weight : ℚ
  contribution : ℚ
deriving DecidableEq, Repr

/-- The `breakdown` object of the result of calculateFinalScore. -/
structure Breakdown where
  logic : BreakdownEntry
  clarity : BreakdownEntry
  testing : BreakdownEntry
  efficiency : BreakdownEntry
  apiUi : BreakdownEntry
  edgeCases : BreakdownEntry
  creativity : BreakdownEntry
deriving DecidableEq, Repr

/-- The object returned by calculateFinalScore. -/
structure ScoreResult where
  finalScore : ℚ
  logicContribution : ℚ
  clarityContribution : ℚ
  testingContribution : ℚ
  efficiencyContribution : ℚ
  apiUiContribution : ℚ
  edgeCasesContribution : ℚ
  creativityContribution : ℚ
  breakdown : Breakdown
deriving DecidableEq, Repr

/-- The `throw new Error` of calculateFinalScore:
`Weights must sum to 1.0, got ${totalWeight}`. -/
inductive CalcError where
  | weightsMustSumTo1 (total : ℚ)
deriving DecidableEq, Repr

/-- Effective logic weight used by calculateFinalScore: the destructuring
default is 0.25. -/
def effLogicWeight (c : Criteria) : ℚ := c.logic_weight.getD (1/4)

/-- Effective clarity weight: destructuring default 0.30. -/
def effClarityWeight (c : Criteria) : ℚ := c.clarity_weight.getD (3/10)

/-- Effective testing weight: destructuring default 0.0. -/
def effTestingWeight (c : Criteria) : ℚ := c.testing_weight.getD 0

/-- Effective efficiency weight: destructuring default 0.0. -/
def effEfficiencyWeight (c : Criteria) : ℚ := c.efficiency_weight.getD 0

/-- Effective api/ui weight: destructuring default 0.20. -/
def effApiUiWeight (c : Criteria) : ℚ := c.api_ui_weight.getD (1/5)

/-- Effective edge-cases weight: destructuring default 0.15. -/
def effEdgeCasesWeight (c : Criteria) : ℚ := c.edge_cases_weight.getD (3/20)

/-- Effective creativity weight: destructuring default 0.10. -/
def effCreativityWeight (c : Criteria) : ℚ := c.creativity_weight.getD (1/10)

/-- The `totalWeight` computed inside calculateFinalScore: the sum of the
seven effective (destructured-with-default) weights.  Note that this differs
from the sum checked by validateCriteria, where an absent weight contributes
0 rather than its destructuring default. -/
def effTotalWeight (c : Criteria) : ℚ :=
  effLogicWeight c + effClarityWeight c + effTestingWeight c +
    effEfficiencyWeight c + effApiUiWeight c + effEdgeCasesWeight c +
    effCreativityWeight c

/-- Unrounded `logicContribution = logic_score * logic_weight`. -/
def rawLogicContribution (a : AIScore) (c : Criteria) : ℚ :=
  a.logic_score * effLogicWeight c

/-- Unrounded `clarityContribution = clarity_score * clarity_weight`. -/
def rawClarityContribution (a : AIScore) (c : Criteria) : ℚ :=
  a.clarity_score * effClarityWeight c

/-- Unrounded `testingContribution = testing_rate * testing_weight`. -/
def rawTestingContribution (a : AIScore) (c : Criteria) : ℚ :=
  a.testing_rate * effTestingWeight c

/-- Unrounded `efficiencyContribution = efficiency_score * efficiency_weight`. -/
def rawEfficiencyContribution (a : AIScore) (c : Criteria) : ℚ :=
  a.efficiency_score.getD 0 * effEfficiencyWeight c

/-- Unrounded `apiUiContribution = api_ui_score * api_ui_weight`. -/
def rawApiUiContribution (a : AIScore) (c : Criteria) : ℚ :=
  a.api_ui_score.getD 0 * effApiUiWeight c

/-- Unrounded `edgeCasesContribution = edge_cases_score * edge_cases_weight`. -/
def rawEdgeCasesContribution (a : AIScore) (c : Criteria) : ℚ :=
  a.edge_cases_score.getD 0 * effEdgeCasesWeight c

/-- Unrounded `creativityContribution = creativity_score * creativity_weight`. -/
def rawCreativityContribution (a : AIScore) (c : Criteria) : ℚ :=
  a.creativity_score.getD 0 * effCreativityWeight c

/-- Unrounded `finalScore`: the sum of the seven contributions. -/
def rawFinalScore (a : AIScore) (c : Criteria) : ℚ :=
  rawLogicContribution a c + rawClarityContribution a c +
    rawTestingContribution a c + rawEfficiencyContribution a c +
    rawApiUiContribution a c + rawEdgeCasesContribution a c +
    rawCreativityContribution a c

/-- The result object built by calculateFinalScore once the weight check has
passed: each stored value is the corresponding unrounded value put through
`Math.round(v * 100) / 100`, and the breakdown stores the unrounded data. -/
def calcResult (a : AIScore) (c : Criteria) : ScoreResult where
  finalScore := round2 (rawFinalScore a c)
  logicContribution := round2 (rawLogicContribution a c)
  clarityContribution := round2 (rawClarityContribution a c)
  testingContribution := round2 (rawTestingContribution a c)
  efficiencyContribution := round2 (rawEfficiencyContribution a c)
  apiUiContribution := round2 (rawApiUiContribution a c)
  edgeCasesContribution := round2 (rawEdgeCasesContribution a c)
  creativityContribution := round2 (rawCreativityContribution a c)
  breakdown :=
    { logic := ⟨a.logic_score, effLogicWeight c, rawLogicContribution a c⟩
      clarity := ⟨a.clarity_score, effClarityWeight c, rawClarityContribution a c⟩
      testing := ⟨a.testing_rate, effTestingWeight c, rawTestingContribution a c⟩
      efficiency := ⟨a.efficiency_score.getD 0, effEfficiencyWeight c,
        rawEfficiencyContribution a c⟩
      apiUi := ⟨a.api_ui_score.getD 0, effApiUiWeight c, rawApiUiContribution a c⟩
      edgeCases := ⟨a.edge_cases_score.getD 0, effEdgeCasesWeight c,
        rawEdgeCasesContribution a c⟩
      creativity := ⟨a.creativity_score.getD 0, effCreativityWeight c,
        rawCreativityContribution a c⟩ }

/-- calculateFinalScore from the source: destructure scores and weights (with
their defaults), throw when `|totalWeight - 1.0| > 0.01`, and otherwise
return the rounded contributions, the rounded final score and the breakdown. -/
def calculateFinalScore (a : AIScore) (c : Criteria) : Except CalcError ScoreResult :=
  if |effTotalWeight c - 1| > 1/100 then
    Except.error (CalcError.weightsMustSumTo1 (effTotalWeight c))
  else
    Except.ok (calcResult a c)

/-- A score object passed to calculateRankings: the engine reads only
`finalScore`; `user_id` stands for the identity data carried along. -/
structure Score where
  user_id : String
  finalScore : ℚ
deriving DecidableEq, Repr

/-- A ranked entry `{ ...score, rank }` produced by calculateRankings. -/
structure RankedEntry where
  score : Score
  rank : ℕ
deriving DecidableEq, Repr

/-- The descending order used by `sort((a, b) => b.finalScore - a.finalScore)`:
a comes before b when its final score is at least that of b. -/
def scoreGE (a b : Score) : Prop := b.finalScore ≤ a.finalScore

instance : DecidableRel scoreGE := fun a b =>
  inferInstanceAs (Decidable (b.finalScore ≤ a.finalScore))

instance : IsTotal Score scoreGE := ⟨fun a b => le_total b.finalScore a.finalScore⟩

instance : IsTrans Score scoreGE := ⟨fun _ _ _ h1 h2 => le_trans h2 h1⟩

/-- The stable descending sort `[...scores].sort((a, b) => b.finalScore -
a.finalScore)`: JavaScript Array.prototype.sort is stable, so it is modeled
by the stable insertion sort. -/
def sortByScoreDesc (l : List Score) : List Score := l.insertionSort scoreGE

/-- The loop-body rank update of calculateRankings: at 0-based index `i`,
`if (previousScore !== null && score.finalScore !== previousScore)
currentRank = i + 1`. -/
def nextRank (i currentRank : ℕ) (fs : ℚ) (previousScore : Option ℚ) : ℕ :=
  match previousScore with
  | none => currentRank
  | some p => if fs ≠ p then i + 1 else currentRank

/-- The rank-assignment loop of calculateRankings: `i` is the 0-based loop
index, `currentRank` starts at 1, `previousScore` starts at null; when the
current final score differs from the previous one the rank becomes `i + 1`,
otherwise it is inherited. -/
def assignRanksAux : List Score → ℕ → ℕ → Option ℚ → List RankedEntry
  | [], _, _, _ => []
  | s :: rest, i, currentRank, previousScore =>
    let newRank := nextRank i currentRank s.finalScore previousScore
    ⟨s, newRank⟩ :: assignRanksAux rest (i + 1) newRank (some s.finalScore)

/-- calculateRankings from the source: sort a copy of the input descending by
final score, then assign ranks with tie handling.  The empty-input guard of
the source returns [] and is subsumed by the recursion on []. -/
def calculateRankings (scores : List Score) : List RankedEntry :=
  assignRanksAux (sortByScoreDesc scores) 0 1 none

/-- The rank column of the output of calculateRankings. -/
def ranksOf (l : List Score) : List ℕ :=
  (calculateRankings l).map fun e => e.rank

/-- A JavaScript score object as it lives on the heap during
calculateRankings: the identity and finalScore data plus the `rank` property,
absent on input objects and set on the fresh output objects. -/
structure HeapObj where
  user_id : String
  finalScore : ℚ
  rank : Option ℕ := none
deriving DecidableEq, Repr

/-- A heap of score objects; an address is an index into the list, and the
allocation of a fresh object appends it. -/
abbrev Heap : Type := List HeapObj

/-- Dereference an address (lookups at dangling addresses return a dummy
object; the source never creates such an address). -/
def getObj (h : Heap) (a : ℕ) : HeapObj := List.getD h a ⟨"", 0, none⟩

/-- The comparator order on addresses induced by the objects they point to. -/
def addrGE (h : Heap) (x y : ℕ) : Prop :=
  (getObj h y).finalScore ≤ (getObj h x).finalScore

instance (h : Heap) : DecidableRel (addrGE h) := fun x y =>
  inferInstanceAs (Decidable ((getObj h y).finalScore ≤ (getObj h x).finalScore))

/-- The in-place stable sort of the spread copy `[...scores]`: the copy holds
the same addresses as the input array, and sorting only reorders them. -/
def sortAddrsByScoreDesc (h : Heap) (arr : List ℕ) : List ℕ :=
  arr.insertionSort (addrGE h)

/-- The rank-assignment loop of calculateRankings on the heap model: each
iteration reads the object at the current address and allocates a fresh
object `{ ...score, rank: currentRank }`; the heap is only ever appended to. -/
def rankLoopHeap : Heap → List ℕ → ℕ → ℕ → Option ℚ → Heap × List ℕ
  | h, [], _, _, _ => (h, [])
  | h, a :: rest, i, currentRank, previousScore =>
    let s := getObj h a
    let newRank := nextRank i currentRank s.finalScore previousScore
    let h1 : Heap := h ++ [{ s with rank := some newRank }]
    let out := rankLoopHeap h1 rest (i + 1) newRank (some s.finalScore)
    (out.1, List.length h :: out.2)

/-- calculateRankings on the heap model: spread-copy the input array of
addresses, sort the copy, then run the allocation loop.  The input array
itself is never written. -/
def calculateRankingsHeap (h : Heap) (scores : List ℕ) : Heap × List ℕ :=
  rankLoopHeap h (sortAddrsByScoreDesc h scores) 0 1 none

/-- Dummy object used as the default of positional getD lookups. -/
def dScore : Score := ⟨"", 0⟩

/-- The weight set of the worked example of the specification (and of the
repository test script test-api.js): logic 0.4, clarity 0.3, testing 0.3,
efficiency 0.0, the other three weight names absent. -/
def exampleCriteria : Criteria where
  logic_weight := some (2/5)
  clarity_weight := some (3/10)
  testing_weight := some (3/10)
  efficiency_weight := some 0

/-- The raw scores of the worked example: logic 95, clarity 90, testing 100,
efficiency 0, the other sub-scores absent. -/
def exampleAIScore : AIScore where
  logic_score := 95
  clarity_score := 90
  testing_rate := 100
  efficiency_score := some 0

/-- A weight set with every canonical weight present, summing to 1. -/
def c1Criteria : Criteria where
  logic_weight := some (1/2)
  clarity_weight := some (1/2)

/-- Three already-sorted entries with final scores 95.00, 95.00, 86.50. -/
def tieExample : List Score := [⟨"u1", 95⟩, ⟨"u2", 95⟩, ⟨"u3", 173/2⟩]

/-- An unsorted collection with a tie at 95, for the stability statement. -/
def stableExample : List Score := [⟨"a", 50⟩, ⟨"b", 95⟩, ⟨"c", 95⟩, ⟨"d", 80⟩]

/-- A weight set with two out-of-range weights and a bad total. -/
def c7Criteria : Criteria where
  logic_weight := some (3/2)
  clarity_weight := some (-(1/5))

/-- A raw score with one missing required field and one out-of-range score. -/
def c7Raw : RawScore where
  user_id := some "u"
  ai_score := some 150
  code_quality := some 50
  testing_rate := some 50
  logic_score := some 50
  clarity_score := some 50

/-- A raw score whose required fields are all present and whose logic_score
150 is out of range. -/
def c4Raw : RawScore where
  user_id := some "u"
  challenge_id := some "ch"
  ai_score := some 50
  code_quality := some 50
  testing_rate := some 50
  logic_score := some 150
  clarity_score := some 50

/-- The numeric view of c4Raw. -/
def c4AI : AIScore where
  logic_score := 150
  clarity_score := 50
  testing_rate := 50

/-- Scores whose logic contribution under the default weights is exactly
0.125, a rounding tie. -/
def c3AI : AIScore where
  logic_score := 1/2
  clarity_score := 0
  testing_rate := 0

/-- The empty weight set: every effective weight is its destructuring
default, and the defaults sum to exactly 1. -/
def emptyCriteria : Criteria := {}

/-- A two-object heap for the frame witness. -/
def c10Heap : Heap := [⟨"u1", 95, none⟩, ⟨"u2", 173/2, none⟩]

/-- The input array of addresses for the frame witness. -/
def c10Arr : List ℕ := [0, 1]

/- ------------------------------------------------------------------ -/
/- Helper lemmas                                                      -/
/- ------------------------------------------------------------------ -/

theorem mem_weightFields (f : WField) : f ∈ weightFields := by
  cases f <;> simp [weightFields]

theorem assignRanksAux_map_score (l : List Score) :
    ∀ i cur prev, (assignRanksAux l i cur prev).map (fun e => e.score) = l := by
  induction l with
  | nil => intro i cur prev; rfl
  | cons s rest ih => intro i cur prev; simp [assignRanksAux, ih]

theorem calculateRankings_map_score (l : List Score) :
    (calculateRankings l).map (fun e => e.score) = sortByScoreDesc l :=
  assignRanksAux_map_score _ 0 1 none

/-- Positional description of the rank loop when a previous score is in hand:
the rank at position j is the global 1-based position when the score differs
from the previous one, and the previous rank otherwise. -/
theorem assignRanksAux_rank_getD (l : List Score) :
    ∀ (p : ℚ) (i cur j : ℕ), j < l.length →
      ((assignRanksAux l i cur (some p)).map fun e => e.rank).getD j 0 =
        if (l.getD j dScore).finalScore =
            (if j = 0 then p else (l.getD (j - 1) dScore).finalScore) then
          (if j = 0 then cur
           else ((assignRanksAux l i cur (some p)).map fun e => e.rank).getD (j - 1) 0)
        else i + j + 1 := by
  induction l with
  | nil => intro p i cur j hj; simp at hj
  | cons s rest ih =>
    intro p i cur j hj
    match j with
    | 0 =>
      by_cases hsp : s.finalScore = p <;> simp [assignRanksAux, nextRank, hsp]
    | Nat.succ j' =>
      have hj' : j' < rest.length := by simpa using Nat.lt_of_succ_lt_succ hj
      rw [show assignRanksAux (s :: rest) i cur (some p) =
          ⟨s, nextRank i cur s.finalScore (some p)⟩ ::
            assignRanksAux rest (i + 1) (nextRank i cur s.finalScore (some p))
              (some s.finalScore) from rfl]
      generalize nextRank i cur s.finalScore (some p) = R
      have hstep := ih s.finalScore (i + 1) R j' hj'
      match j' with
      | 0 =>
        simp only [List.map_cons, List.getD_cons_succ, List.getD_cons_zero,
          Nat.succ_sub_one] at hstep ⊢
        simp only [Nat.succ_ne_zero, if_false, if_pos rfl] at hstep ⊢
        rw [hstep]
        by_cases hr : (rest.getD 0 dScore).finalScore = s.finalScore <;> simp [hr]
      | Nat.succ j'' =>
        simp only [List.map_cons, List.getD_cons_succ, List.getD_cons_zero,
          Nat.succ_sub_one] at hstep ⊢
        simp only [Nat.succ_ne_zero, if_false, if_pos rfl] at hstep ⊢
        simp only [Nat.succ_eq_add_one] at hstep ⊢
        rw [hstep]
        by_cases hr : (rest.getD (j'' + 1) dScore).finalScore =
            (rest.getD j'' dScore).finalScore
        · rw [if_pos hr, if_pos hr]
        · rw [if_neg hr, if_neg hr]; omega

/-- The updated rank never exceeds the new 1-based position. -/
theorem nextRank_le (i cur : ℕ) (fs : ℚ) (prev : Option ℚ) (h : cur ≤ i + 1) :
    nextRank i cur fs prev ≤ i + 1 := by
  unfold nextRank
  split
  · exact h
  · split
    · omega
    · exact h

/-- The updated rank never decreases below the incoming current rank. -/
theorem nextRank_ge (i cur : ℕ) (fs : ℚ) (prev : Option ℚ) (h : cur ≤ i + 1) :
    cur ≤ nextRank i cur fs prev := by
  unfold nextRank
  split
  · exact le_refl cur
  · split
    · exact h
    · exact le_refl cur

/-- Invariants of the rank loop: when the incoming current rank is at most
the incoming 1-based position, every produced rank is at least the incoming
current rank, ranks are pairwise non-decreasing, and the rank at offset j is
at most the 1-based position i + j + 1. -/
theorem assignRanksAux_rank_bounds (l : List Score) :
    ∀ (i cur : ℕ) (prev : Option ℚ), cur ≤ i + 1 →
      (∀ e ∈ assignRanksAux l i cur prev, cur ≤ e.rank) ∧
      (assignRanksAux l i cur prev).Pairwise (fun a b => a.rank ≤ b.rank) ∧
      (∀ j, j < l.length →
        ((assignRanksAux l i cur prev).map fun e => e.rank).getD j 0 ≤ i + j + 1) := by
  induction l with
  | nil =>
    intro i cur prev _
    refine ⟨by simp [assignRanksAux], by simp [assignRanksAux], ?_⟩
    intro j hj; simp at hj
  | cons s rest ih =>
    intro i cur prev hcur
    rw [show assignRanksAux (s :: rest) i cur prev =
        ⟨s, nextRank i cur s.finalScore prev⟩ ::
          assignRanksAux rest (i + 1) (nextRank i cur s.finalScore prev)
            (some s.finalScore) from rfl]
    have hRle := nextRank_le i cur s.finalScore prev hcur
    have hRge := nextRank_ge i cur s.finalScore prev hcur
    have hrec := ih (i + 1) (nextRank i cur s.finalScore prev)
      (some s.finalScore) (by omega)
    refine ⟨?_, ?_, ?_⟩
    · intro e he
      rcases List.mem_cons.mp he with he | he
      · rw [he]; exact hRge
      · exact le_trans hRge (hrec.1 e he)
    · exact List.pairwise_cons.mpr ⟨fun e he => hrec.1 e he, hrec.2.1⟩
    · intro j hj
      match j with
      | 0 => simpa using hRle
      | Nat.succ j' =>
        have hj' : j' < rest.length := by simpa using Nat.lt_of_succ_lt_succ hj
        have := hrec.2.2 j' hj'
        simp only [List.map_cons, List.getD_cons_succ]
        omega

/-- Filtering for a given final score commutes with inserting an element of
that score: the elements skipped over all have a strictly larger score. -/
theorem filter_orderedInsert_of_eq (q : ℚ) (x : Score) (hx : x.finalScore = q) :
    ∀ l : List Score,
      (List.orderedInsert scoreGE x l).filter (fun s => decide (s.finalScore = q)) =
        x :: l.filter (fun s => decide (s.finalScore = q)) := by
  intro l
  induction l with
  | nil => simp [List.orderedInsert, hx]
  | cons y ys ih =>
    rw [List.orderedInsert]
    by_cases hxy : scoreGE x y
    · rw [if_pos hxy]
      simp [hx]
    · rw [if_neg hxy]
      have hy : ¬ y.finalScore = q := by
        rw [← hx]
        intro hc
        exact hxy (le_of_eq hc)
      rw [List.filter_cons_of_neg (by simpa using hy),
        List.filter_cons_of_neg (by simpa using hy), ih]

/-- Filtering for a final score different from that of the inserted element
ignores the insertion. -/
theorem filter_orderedInsert_of_ne (q : ℚ) (x : Score) (hx : ¬ x.finalScore = q) :
    ∀ l : List Score,
      (List.orderedInsert scoreGE x l).filter (fun s => decide (s.finalScore = q)) =
        l.filter (fun s => decide (s.finalScore = q)) := by
  intro l
  induction l with
  | nil => simp [List.orderedInsert, hx]
  | cons y ys ih =>
    rw [List.orderedInsert]
    by_cases hxy : scoreGE x y
    · rw [if_pos hxy]
      simp [hx]
    · rw [if_neg hxy]
      by_cases hy : y.finalScore = q
      · rw [List.filter_cons_of_pos (by simpa using hy),
          List.filter_cons_of_pos (by simpa using hy), ih]
      · rw [List.filter_cons_of_neg (by simpa using hy),
          List.filter_cons_of_neg (by simpa using hy), ih]

/-- Stability of the descending sort: for every final score value, the
subsequence of entries carrying that value is exactly the input subsequence,
in input order. -/
theorem filter_sortByScoreDesc (q : ℚ) (l : List Score) :
    (sortByScoreDesc l).filter (fun s => decide (s.finalScore = q)) =
      l.filter (fun s => decide (s.finalScore = q)) := by
  induction l with
  | nil => rfl
  | cons s rest ih =>
    rw [sortByScoreDesc] at ih
    rw [sortByScoreDesc, List.insertionSort]
    by_cases hs : s.finalScore = q
    · rw [filter_orderedInsert_of_eq q s hs, ih,
        List.filter_cons_of_pos (by simpa using hs)]
    · rw [filter_orderedInsert_of_ne q s hs, ih,
        List.filter_cons_of_neg (by simpa using hs)]

/-- The heap loop of calculateRankingsHeap only appends allocations to the
heap, and every address it returns is fresh relative to the incoming heap. -/
theorem rankLoopHeap_extends (l : List ℕ) :
    ∀ (h : Heap) (i cur : ℕ) (prev : Option ℚ),
      (∃ ext, (rankLoopHeap h l i cur prev).1 = h ++ ext) ∧
      (∀ b ∈ (rankLoopHeap h l i cur prev).2, h.length ≤ b) := by
  induction l with
  | nil =>
    intro h i cur prev
    exact ⟨⟨[], (List.append_nil h).symm⟩, by simp [rankLoopHeap]⟩
  | cons a rest ih =>
    intro h i cur prev
    rw [show rankLoopHeap h (a :: rest) i cur prev =
        ((rankLoopHeap
            (h ++ [{ getObj h a with
              rank := some (nextRank i cur (getObj h a).finalScore prev) }])
            rest (i + 1) (nextRank i cur (getObj h a).finalScore prev)
            (some (getObj h a).finalScore)).1,
          List.length h ::
            (rankLoopHeap
              (h ++ [{ getObj h a with
                rank := some (nextRank i cur (getObj h a).finalScore prev) }])
              rest (i + 1) (nextRank i cur (getObj h a).finalScore prev)
              (some (getObj h a).finalScore)).2) from rfl]
    obtain ⟨⟨ext, hext⟩, hfresh⟩ :=
      ih (h ++ [{ getObj h a with
          rank := some (nextRank i cur (getObj h a).finalScore prev) }])
        (i + 1) (nextRank i cur (getObj h a).finalScore prev)
        (some (getObj h a).finalScore)
    refine ⟨⟨{ getObj h a with
      rank := some (nextRank i cur (getObj h a).finalScore prev) } :: ext, ?_⟩, ?_⟩
    · rw [hext, List.append_assoc]
      rfl
    · intro b hb
      rcases List.mem_cons.mp hb with hb | hb
      · omega
      · have := hfresh b hb
        rw [List.length_append] at this
        simp at this
        omega


/- ------------------------------------------------------------------ -/
/- Claim theorems                                                     -/
/- ------------------------------------------------------------------ -/

/-- C1: validateCriteria accepts (returns isValid = true) if and only if
every present weight is a number in [0, 1] and the sum over the fixed
canonical set of seven weight names (missing names contributing 0) deviates
from 1.0 by at most 0.01; consequently every accepted WeightSet has weight
sum in [0.99, 1.01]. -/
theorem validateCriteria_accepts_iff (c : Criteria) :
    ((validateCriteria c).isValid = true ↔
      ((∀ f w, getWeight c f = some w → 0 ≤ w ∧ w ≤ 1) ∧
        |totalWeight c - 1| ≤ 1/100)) ∧
    ((validateCriteria c).isValid = true →
      99/100 ≤ totalWeight c ∧ totalWeight c ≤ 101/100) := by
  have hvalid : (validateCriteria c).isValid = true ↔
      criteriaRangeErrors c = [] ∧ ¬(|totalWeight c - 1| > 1/100) := by
    simp only [validateCriteria]
    rw [List.isEmpty_iff, List.append_eq_nil]
    constructor
    · rintro ⟨h1, h2⟩
      refine ⟨h1, fun hgt => ?_⟩
      rw [if_pos hgt] at h2
      exact List.cons_ne_nil _ _ h2
    · rintro ⟨h1, h2⟩
      exact ⟨h1, by rw [if_neg h2]⟩
  have hrange : criteriaRangeErrors c = [] ↔
      ∀ f w, getWeight c f = some w → 0 ≤ w ∧ w ≤ 1 := by
    rw [criteriaRangeErrors, List.filterMap_eq_nil_iff]
    constructor
    · intro h f w hw
      have h2 := h f (mem_weightFields f)
      rw [hw] at h2
      have h3 : (if w < 0 ∨ w > 1 then some (CritError.weightOutOfRange f)
          else none) = (none : Option CritError) := h2
      by_cases hcon : w < 0 ∨ w > 1
      · rw [if_pos hcon] at h3
        exact absurd h3 (by simp)
      · push_neg at hcon
        exact hcon
    · intro h f _
      cases hgw : getWeight c f with
      | none => rfl
      | some w =>
        have hb := h f w hgw
        show (if w < 0 ∨ w > 1 then some (CritError.weightOutOfRange f)
          else none) = (none : Option CritError)
        rw [if_neg (not_or.mpr ⟨not_lt.mpr hb.1, not_lt.mpr hb.2⟩)]
  constructor
  · rw [hvalid, hrange, not_lt]
  · intro hv
    have h2 := (hvalid.mp hv).2
    rw [not_lt] at h2
    have hb := abs_le.mp h2
    constructor <;> linarith [hb.1, hb.2]

/-- C1 witness: the weight set with logic and clarity both 0.5 is accepted,
and its total weight therefore lies in [0.99, 1.01]. -/
theorem validateCriteria_accepts_iff_witness :
    99/100 ≤ totalWeight c1Criteria ∧ totalWeight c1Criteria ≤ 101/100 :=
  (validateCriteria_accepts_iff c1Criteria).2
    (by norm_num [validateCriteria, criteriaRangeErrors, totalWeight,
      weightFields, getWeight, c1Criteria])

/-- C8: calculateRankings applied to an empty collection returns the empty
sequence (and, being a total function, signals no error). -/
theorem calculateRankings_nil : calculateRankings [] = [] := rfl

/-- C2: on an input already sorted descending by final score,
calculateRankings keeps the entries in place and assigns to entry j (0-based;
1-based position j + 1) the rank j + 1 whenever its final score differs from
the previous entry's, and the previous entry's rank otherwise; the first
entry gets rank 1. -/
theorem calculateRankings_ranking_law (l : List Score) (hs : l.Sorted scoreGE) :
    (calculateRankings l).map (fun e => e.score) = l ∧
    (0 < l.length → (ranksOf l).getD 0 0 = 1) ∧
    (∀ j, 0 < j → j < l.length →
      ((l.getD j dScore).finalScore ≠ (l.getD (j - 1) dScore).finalScore →
        (ranksOf l).getD j 0 = j + 1) ∧
      ((l.getD j dScore).finalScore = (l.getD (j - 1) dScore).finalScore →
        (ranksOf l).getD j 0 = (ranksOf l).getD (j - 1) 0)) := by
  have hsort : sortByScoreDesc l = l := hs.insertionSort_eq
  have hcr : calculateRankings l = assignRanksAux l 0 1 none := by
    rw [calculateRankings, hsort]
  refine ⟨by rw [hcr]; exact assignRanksAux_map_score l 0 1 none, ?_, ?_⟩
  · intro hlen
    obtain ⟨s, rest, rfl⟩ :=
      List.exists_cons_of_ne_nil (List.ne_nil_of_length_pos hlen)
    rw [ranksOf, hcr]
    rfl
  · intro j hj0 hjlen
    have hne' : l ≠ [] := List.ne_nil_of_length_pos (Nat.lt_of_lt_of_le hj0 (le_of_lt hjlen))
    obtain ⟨s, rest, rfl⟩ := List.exists_cons_of_ne_nil hne'
    have hrw : ranksOf (s :: rest) =
        1 :: (assignRanksAux rest 1 1 (some s.finalScore)).map (fun e => e.rank) := by
      rw [ranksOf, hcr]
      rfl
    match j, hj0 with
    | Nat.succ j', _ =>
      have hj' : j' < rest.length := by simpa using Nat.lt_of_succ_lt_succ hjlen
      have hlaw := assignRanksAux_rank_getD rest s.finalScore 1 1 j' hj'
      constructor
      · intro hne
        rw [hrw, List.getD_cons_succ, hlaw, if_neg]
        · omega
        · match j' with
          | 0 => simpa using hne
          | Nat.succ j'' => simpa using hne
      · intro heq
        rw [hrw, List.getD_cons_succ, hlaw, if_pos]
        · match j' with
          | 0 => simp
          | Nat.succ j'' => simp
        · match j' with
          | 0 => simpa using heq
          | Nat.succ j'' => simpa using heq

/-- C2 witness: the sorted final scores 95.00, 95.00, 86.50 receive the ranks
1, 1, 3; the rank 3 at 0-based index 2 is its 1-based position, obtained from
the ranking law because 86.50 differs from 95.00. -/
theorem calculateRankings_ranking_law_witness :
    ranksOf tieExample = [1, 1, 3] ∧ (ranksOf tieExample).getD 2 0 = 2 + 1 := by
  have hsorted : tieExample.Sorted scoreGE := by
    norm_num [tieExample, List.sorted_cons, scoreGE]
  have hlaw := calculateRankings_ranking_law tieExample hsorted
  refine ⟨?_, (hlaw.2.2 2 (by norm_num) (by norm_num [tieExample])).1
    (by norm_num [tieExample, dScore])⟩
  norm_num [ranksOf, calculateRankings, sortByScoreDesc, List.insertionSort,
    List.orderedInsert, scoreGE, assignRanksAux, nextRank, tieExample]

/-- C6: calculateRankings orders its output descending by final score, and
for every final score value the entries carrying it appear in the same
relative order as in the input collection (stable sort by arrival order). -/
theorem calculateRankings_sorted_and_stable (l : List Score) :
    ((calculateRankings l).map fun e => e.score).Sorted scoreGE ∧
    ∀ q : ℚ, (((calculateRankings l).map fun e => e.score).filter
        fun s => decide (s.finalScore = q)) =
      l.filter fun s => decide (s.finalScore = q) := by
  rw [calculateRankings_map_score]
  exact ⟨List.sorted_insertionSort scoreGE l, fun q => filter_sortByScoreDesc q l⟩

/-- C6 witness: on the unsorted collection a(50), b(95), c(95), d(80) the
entries with final score 95 appear in the output in input order b before c. -/
theorem calculateRankings_sorted_and_stable_witness :
    (((calculateRankings stableExample).map fun e => e.score).filter
        fun s => decide (s.finalScore = 95)) =
      stableExample.filter (fun s => decide (s.finalScore = 95)) ∧
    stableExample.filter (fun s => decide (s.finalScore = 95)) =
      [⟨"b", 95⟩, ⟨"c", 95⟩] := by
  refine ⟨(calculateRankings_sorted_and_stable stableExample).2 95, ?_⟩
  norm_num [stableExample, List.filter]

/-- C9: on every non-empty input the output of calculateRankings starts with
rank 1, has non-decreasing ranks along the sequence, and every rank is at
most its 1-based position. -/
theorem calculateRankings_rank_invariants (l : List Score) (hne : l ≠ []) :
    (ranksOf l).getD 0 0 = 1 ∧
    (ranksOf l).Chain' (fun a b => a ≤ b) ∧
    (∀ j, j < (ranksOf l).length → (ranksOf l).getD j 0 ≤ j + 1) := by
  have hb := assignRanksAux_rank_bounds (sortByScoreDesc l) 0 1 none (by omega)
  have hranks : ranksOf l =
      (assignRanksAux (sortByScoreDesc l) 0 1 none).map fun e => e.rank := by
    rw [ranksOf, calculateRankings]
  have hslen : (sortByScoreDesc l).length = l.length :=
    (List.perm_insertionSort scoreGE l).length_eq
  have hassignlen : (assignRanksAux (sortByScoreDesc l) 0 1 none).length = l.length := by
    have hmap := assignRanksAux_map_score (sortByScoreDesc l) 0 1 none
    have h2 := congrArg List.length hmap
    simp only [List.length_map] at h2
    rw [h2, hslen]
  have hlen : (ranksOf l).length = l.length := by
    rw [hranks, List.length_map, hassignlen]
  have hpos : 0 < l.length := List.length_pos.mpr hne
  refine ⟨?_, ?_, ?_⟩
  · obtain ⟨e, tl, heq⟩ := List.exists_cons_of_ne_nil
      (show assignRanksAux (sortByScoreDesc l) 0 1 none ≠ [] by
        intro hcon
        rw [hcon] at hassignlen
        exact hne (List.eq_nil_of_length_eq_zero hassignlen.symm))
    have hmem : e ∈ assignRanksAux (sortByScoreDesc l) 0 1 none := by
      rw [heq]; exact List.mem_cons_self e tl
    have hgo : (ranksOf l).getD 0 0 = e.rank := by
      rw [hranks, heq]
      rfl
    have h1 : 1 ≤ e.rank := hb.1 e hmem
    have h2 : (ranksOf l).getD 0 0 ≤ 0 + 0 + 1 := by
      rw [hranks]
      exact hb.2.2 0 (by omega)
    rw [hgo] at h2 ⊢
    omega
  · rw [hranks]
    exact (List.Pairwise.map (fun e : RankedEntry => e.rank)
      (fun a b hab => hab) hb.2.1).chain'
  · intro j hj
    rw [hlen] at hj
    rw [hranks]
    have := hb.2.2 j (by omega)
    omega

/-- C9 witness: on the four-entry collection the first output rank is 1 and
the rank at 0-based index 3 is at most its 1-based position 4. -/
theorem calculateRankings_rank_invariants_witness :
    (ranksOf stableExample).getD 0 0 = 1 ∧
    (ranksOf stableExample).getD 3 0 ≤ 3 + 1 := by
  have h := calculateRankings_rank_invariants stableExample
    (by simp [stableExample])
  refine ⟨h.1, h.2.2 3 ?_⟩
  norm_num [ranksOf, calculateRankings, sortByScoreDesc, List.insertionSort,
    List.orderedInsert, scoreGE, assignRanksAux, nextRank, stableExample]

/-- C3: in any ScoreResult returned by calculateFinalScore, the final score
and each of the seven top-level contribution values equal round(v*100)/100 of
the corresponding unrounded value v, each rounded independently, with half-up
semantics on the integer-scaled value: round2 maps 0.125 to 0.13. -/
theorem calculateFinalScore_rounding (a : AIScore) (c : Criteria)
    (r : ScoreResult) (h : calculateFinalScore a c = Except.ok r) :
    r.finalScore = round2 (rawFinalScore a c) ∧
    r.logicContribution = round2 (rawLogicContribution a c) ∧
    r.clarityContribution = round2 (rawClarityContribution a c) ∧
    r.testingContribution = round2 (rawTestingContribution a c) ∧
    r.efficiencyContribution = round2 (rawEfficiencyContribution a c) ∧
    r.apiUiContribution = round2 (rawApiUiContribution a c) ∧
    r.edgeCasesContribution = round2 (rawEdgeCasesContribution a c) ∧
    r.creativityContribution = round2 (rawCreativityContribution a c) ∧
    round2 (1/8) = 13/100 := by
  have hok : r = calcResult a c := by
    rw [calculateFinalScore] at h
    by_cases hW : |effTotalWeight c - 1| > 1/100
    · rw [if_pos hW] at h
      exact absurd h (by simp)
    · rw [if_neg hW] at h
      exact (Except.ok.inj h).symm
  subst hok
  refine ⟨rfl, rfl, rfl, rfl, rfl, rfl, rfl, rfl, ?_⟩
  rw [round2, show ((1:ℚ)/8 * 100 + 1/2) = ((13:ℤ) : ℚ) by norm_num,
    Int.floor_intCast]
  norm_num

/-- C3 witness: with logic_score 0.5 under the default weight set the
unrounded logic contribution is exactly 0.125 and the stored value is 0.13. -/
theorem calculateFinalScore_rounding_witness :
    calculateFinalScore c3AI emptyCriteria =
      Except.ok (calcResult c3AI emptyCriteria) ∧
    rawLogicContribution c3AI emptyCriteria = 1/8 ∧
    (calcResult c3AI emptyCriteria).logicContribution = 13/100 := by
  have htot : effTotalWeight emptyCriteria = 1 := by
    norm_num [effTotalWeight, effLogicWeight, effClarityWeight,
      effTestingWeight, effEfficiencyWeight, effApiUiWeight,
      effEdgeCasesWeight, effCreativityWeight, emptyCriteria]
  have hraw : rawLogicContribution c3AI emptyCriteria = 1/8 := by
    norm_num [rawLogicContribution, effLogicWeight, emptyCriteria, c3AI]
  have hok : calculateFinalScore c3AI emptyCriteria =
      Except.ok (calcResult c3AI emptyCriteria) := by
    rw [calculateFinalScore, htot, if_neg (by norm_num)]
  have h := calculateFinalScore_rounding c3AI emptyCriteria
    (calcResult c3AI emptyCriteria) hok
  refine ⟨hok, hraw, ?_⟩
  rw [h.2.1, hraw]
  exact h.2.2.2.2.2.2.2.2

/-- C4 counterexample: the raw score c4Raw fails its field checks (its
logic_score 150 is out of range, validateAIScore rejects it), yet
calculateFinalScore on its numeric view under the default weight set returns
a ScoreResult carrying the raw 150 — no validation failure is raised. -/
theorem calculateFinalScore_skips_validation_cex :
    (validateAIScore c4Raw).isValid = false ∧
    RawScore.toAIScore c4Raw = some c4AI ∧
    calculateFinalScore c4AI emptyCriteria =
      Except.ok (calcResult c4AI emptyCriteria) ∧
    (calcResult c4AI emptyCriteria).breakdown.logic.score = 150 := by
  have htot : effTotalWeight emptyCriteria = 1 := by
    norm_num [effTotalWeight, effLogicWeight, effClarityWeight,
      effTestingWeight, effEfficiencyWeight, effApiUiWeight,
      effEdgeCasesWeight, effCreativityWeight, emptyCriteria]
  refine ⟨?_, rfl, ?_, rfl⟩
  · simp only [validateAIScore, requiredFields, scoreFields, isPresent,
      getScore, c4Raw, List.filterMap_cons, List.filterMap_nil]
    norm_num
  · rw [calculateFinalScore, htot, if_neg (by norm_num)]

/-- C4 amended: calculateFinalScore performs no RawScore field validation.
For every raw score whose three required numeric sub-scores are present —
even one rejected by validateAIScore — and any weight set passing the
internal sum check, it returns the ScoreResult computed from the raw
sub-scores unchanged: it neither raises a validation failure nor clamps or
defaults an out-of-range score.  The validation failure carrying the error
list is produced only by the separate validateAIScore, which the submission
endpoint invokes before any score reaches aggregation. -/
theorem calculateFinalScore_skips_validation (raw : RawScore) (a : AIScore)
    (c : Criteria) (hview : raw.toAIScore = some a)
    (hinvalid : (validateAIScore raw).isValid = false)
    (hw : |effTotalWeight c - 1| ≤ 1/100) :
    calculateFinalScore a c = Except.ok (calcResult a c) ∧
    (calcResult a c).breakdown.logic.score = a.logic_score ∧
    (calcResult a c).breakdown.clarity.score = a.clarity_score ∧
    (calcResult a c).breakdown.testing.score = a.testing_rate ∧
    (calcResult a c).breakdown.efficiency.score = a.efficiency_score.getD 0 ∧
    (calcResult a c).breakdown.apiUi.score = a.api_ui_score.getD 0 ∧
    (calcResult a c).breakdown.edgeCases.score = a.edge_cases_score.getD 0 ∧
    (calcResult a c).breakdown.creativity.score = a.creativity_score.getD 0 := by
  refine ⟨?_, rfl, rfl, rfl, rfl, rfl, rfl, rfl⟩
  rw [calculateFinalScore, if_neg (not_lt.mpr hw)]

/-- C4 witness: the amended statement applied to the invalid raw score c4Raw
under the default weight set. -/
theorem calculateFinalScore_skips_validation_witness :
    calculateFinalScore c4AI emptyCriteria =
      Except.ok (calcResult c4AI emptyCriteria) ∧
    (calcResult c4AI emptyCriteria).breakdown.clarity.score = 50 := by
  have htot : effTotalWeight emptyCriteria = 1 := by
    norm_num [effTotalWeight, effLogicWeight, effClarityWeight,
      effTestingWeight, effEfficiencyWeight, effApiUiWeight,
      effEdgeCasesWeight, effCreativityWeight, emptyCriteria]
  have hinv : (validateAIScore c4Raw).isValid = false := by
    simp only [validateAIScore, requiredFields, scoreFields, isPresent,
      getScore, c4Raw, List.filterMap_cons, List.filterMap_nil]
    norm_num
  have hw : |effTotalWeight emptyCriteria - 1| ≤ 1/100 := by
    rw [htot]
    norm_num
  have h := calculateFinalScore_skips_validation c4Raw c4AI emptyCriteria rfl
    hinv hw
  exact ⟨h.1, h.2.2.1⟩

/-- C5: on the specification example (weights logic 0.4, clarity 0.3,
testing 0.3, efficiency 0.0, the other three names absent; scores logic 95,
clarity 90, testing 100, efficiency 0) the call does NOT succeed with 95.00:
validateCriteria accepts the weight set (its sum with missing names as 0 is
exactly 1), but calculateFinalScore fills the three absent weights with its
destructuring defaults 0.20, 0.15 and 0.10, computes the internal total
weight 1.45, and throws. -/
theorem c5_example_throws :
    (validateCriteria exampleCriteria).isValid = true ∧
    totalWeight exampleCriteria = 1 ∧
    effTotalWeight exampleCriteria = 29/20 ∧
    calculateFinalScore exampleAIScore exampleCriteria =
      Except.error (CalcError.weightsMustSumTo1 (29/20)) := by
  have htot : effTotalWeight exampleCriteria = 29/20 := by
    norm_num [effTotalWeight, effLogicWeight, effClarityWeight,
      effTestingWeight, effEfficiencyWeight, effApiUiWeight,
      effEdgeCasesWeight, effCreativityWeight, exampleCriteria]
  refine ⟨?_, ?_, htot, ?_⟩
  · norm_num [validateCriteria, criteriaRangeErrors, totalWeight,
      weightFields, getWeight, exampleCriteria]
  · norm_num [totalWeight, weightFields, getWeight, exampleCriteria]
  · rw [calculateFinalScore, htot,
      if_pos (lt_of_lt_of_le (by norm_num) (le_abs_self _))]

/-- C7: a single call to validateCriteria (respectively validateAIScore)
returns the complete list of individual field-level violations: every present
out-of-range weight by name, plus the sum violation when present; every
missing required field by name, plus every present out-of-range score field
by name — never only the first violation. -/
theorem validators_report_all_violations :
    (∀ (c : Criteria) (f : WField) (w : ℚ), getWeight c f = some w →
      (w < 0 ∨ w > 1) →
      CritError.weightOutOfRange f ∈ (validateCriteria c).errors) ∧
    (∀ c : Criteria, |totalWeight c - 1| > 1/100 →
      CritError.totalWeightNot1 (totalWeight c) ∈ (validateCriteria c).errors) ∧
    (∀ (a : RawScore) (f : SField), f ∈ requiredFields → isPresent a f = false →
      ScoreError.missingField f ∈ (validateAIScore a).errors) ∧
    (∀ (a : RawScore) (f : SField) (v : ℚ), f ∈ scoreFields →
      getScore a f = some v → (v < 0 ∨ v > 100) →
      ScoreError.scoreOutOfRange f ∈ (validateAIScore a).errors) := by
  refine ⟨?_, ?_, ?_, ?_⟩
  · intro c f w hw hout
    show CritError.weightOutOfRange f ∈ criteriaRangeErrors c ++
      (if |totalWeight c - 1| > 1/100
        then [CritError.totalWeightNot1 (totalWeight c)] else [])
    apply List.mem_append_left
    refine List.mem_filterMap.mpr ⟨f, mem_weightFields f, ?_⟩
    rw [hw]
    show (if w < 0 ∨ w > 1 then some (CritError.weightOutOfRange f)
      else none) = some (CritError.weightOutOfRange f)
    rw [if_pos hout]
  · intro c htot
    show CritError.totalWeightNot1 (totalWeight c) ∈ criteriaRangeErrors c ++
      (if |totalWeight c - 1| > 1/100
        then [CritError.totalWeightNot1 (totalWeight c)] else [])
    apply List.mem_append_right
    rw [if_pos htot]
    exact List.mem_singleton.mpr rfl
  · intro a f hmem hnp
    show ScoreError.missingField f ∈
      (requiredFields.filterMap fun f =>
        if isPresent a f then none else some (ScoreError.missingField f)) ++ _
    apply List.mem_append_left
    refine List.mem_filterMap.mpr ⟨f, hmem, ?_⟩
    rw [hnp]
    rfl
  · intro a f v hmem hv hout
    show ScoreError.scoreOutOfRange f ∈ _ ++
      (scoreFields.filterMap fun f =>
        match getScore a f with
        | none => none
        | some v => if v < 0 ∨ v > 100
          then some (ScoreError.scoreOutOfRange f) else none)
    apply List.mem_append_right
    refine List.mem_filterMap.mpr ⟨f, hmem, ?_⟩
    rw [hv]
    show (if v < 0 ∨ v > 100 then some (ScoreError.scoreOutOfRange f)
      else none) = some (ScoreError.scoreOutOfRange f)
    rw [if_pos hout]

/-- C7 witness: one call collects every violation together: for the weight
set with logic 1.5 and clarity -0.2 the returned list is exactly both range
violations followed by the sum violation, and for the raw score missing
challenge_id with ai_score 150 it is exactly the missing-field violation
followed by the range violation. -/
theorem validators_report_all_violations_witness :
    CritError.weightOutOfRange WField.logic ∈ (validateCriteria c7Criteria).errors ∧
    CritError.weightOutOfRange WField.clarity ∈ (validateCriteria c7Criteria).errors ∧
    CritError.totalWeightNot1 (13/10) ∈ (validateCriteria c7Criteria).errors ∧
    (validateCriteria c7Criteria).errors =
      [CritError.weightOutOfRange WField.logic,
       CritError.weightOutOfRange WField.clarity,
       CritError.totalWeightNot1 (13/10)] ∧
    (validateAIScore c7Raw).errors =
      [ScoreError.missingField SField.challenge_id,
       ScoreError.scoreOutOfRange SField.ai_score] := by
  have h := validators_report_all_violations
  have htot : totalWeight c7Criteria = 13/10 := by
    norm_num [totalWeight, weightFields, getWeight, c7Criteria]
  have habs : |totalWeight c7Criteria - 1| = 3/10 := by
    rw [htot, show (13:ℚ)/10 - 1 = 3/10 by norm_num,
      abs_of_nonneg (by norm_num : (0:ℚ) ≤ 3/10)]
  have hgt : |totalWeight c7Criteria - 1| > 1/100 := by
    rw [habs]; norm_num
  have hrange : criteriaRangeErrors c7Criteria =
      [CritError.weightOutOfRange WField.logic,
       CritError.weightOutOfRange WField.clarity] := by
    simp only [criteriaRangeErrors, weightFields, getWeight, c7Criteria,
      List.filterMap_cons, List.filterMap_nil]
    norm_num
  refine ⟨h.1 c7Criteria WField.logic (3/2) rfl (by norm_num),
    h.1 c7Criteria WField.clarity (-(1/5)) rfl (by norm_num),
    htot ▸ h.2.1 c7Criteria hgt, ?_, ?_⟩
  · show criteriaRangeErrors c7Criteria ++
      (if |totalWeight c7Criteria - 1| > 1/100
        then [CritError.totalWeightNot1 (totalWeight c7Criteria)] else []) = _
    rw [if_pos hgt, htot, hrange]
    rfl
  · simp only [validateAIScore, requiredFields, scoreFields, isPresent,
      getScore, c7Raw, List.filterMap_cons, List.filterMap_nil]
    norm_num

/-- C10: calculateRankings does not modify its input.  In the heap model the
output heap is the input heap extended by fresh allocations only: every
object referenced by the input array of addresses is unchanged after the
call, and every returned entry lives at a fresh address outside the input
heap (the `{ ...score, rank }` objects); the input array value itself is
never written by the function. -/
theorem calculateRankingsHeap_frame (h : Heap) (arr : List ℕ)
    (hvalid : ∀ a ∈ arr, a < h.length) :
    (∃ ext, (calculateRankingsHeap h arr).1 = h ++ ext) ∧
    (∀ a ∈ arr, getObj (calculateRankingsHeap h arr).1 a = getObj h a) ∧
    (∀ b ∈ (calculateRankingsHeap h arr).2, h.length ≤ b) := by
  obtain ⟨⟨ext, hext⟩, hfresh⟩ :=
    rankLoopHeap_extends (sortAddrsByScoreDesc h arr) h 0 1 none
  refine ⟨⟨ext, hext⟩, ?_, hfresh⟩
  intro a ha
  have hres : (calculateRankingsHeap h arr).1 = h ++ ext := hext
  rw [hres]
  simp only [getObj]
  exact List.getD_append _ _ _ _ (hvalid a ha)

/-- C10 witness: on a two-object heap with input array [0, 1] the call leaves
the object at address 0 unchanged and returns the fresh addresses 2 and 3. -/
theorem calculateRankingsHeap_frame_witness :
    getObj (calculateRankingsHeap c10Heap c10Arr).1 0 = getObj c10Heap 0 ∧
    (calculateRankingsHeap c10Heap c10Arr).2 = [2, 3] ∧
    getObj c10Heap 0 = ⟨"u1", 95, none⟩ := by
  have h := calculateRankingsHeap_frame c10Heap c10Arr
    (by intro a ha; fin_cases ha <;> norm_num [c10Heap])
  refine ⟨h.2.1 0 (by norm_num [c10Arr]), ?_, rfl⟩
  norm_num [calculateRankingsHeap, sortAddrsByScoreDesc, List.insertionSort,
    List.orderedInsert, addrGE, getObj, rankLoopHeap, nextRank, c10Heap, c10Arr]
